import Mathlib

/-!
Verification development for the SVG → UFO glyph pipeline (`build.py`).

The Python source is shallowly embedded: points are pairs of rationals,
pen operations and path segments are inductive types, Python dicts are
insertion-ordered association lists, and Python strings are Lean strings
manipulated through their code-point lists (Python indexes strings by
code point, so `String.data` is the faithful view).  `int(x)` in Python
truncates toward zero, embedded as `pyInt`.
-/

namespace FontBuild

/-- The slice of `font-config.json` that the geometry code reads:
`config["font"]["unitsPerEm"]`, `config["build"]["baselineSvgY"]`,
`config["build"]["svgYIsDown"]`. -/
structure Config where
  unitsPerEm : ℚ
  baselineSvgY : ℚ
  svgYIsDown : Bool
deriving DecidableEq

/-- A 2-D coordinate (svgpathtools hands the Python code complex numbers;
the code immediately splits them into `.real`/`.imag`). -/
def Point : Type := ℚ × ℚ

instance : DecidableEq Point := instDecidableEqProd
instance : Inhabited Point := ⟨((0 : ℚ), (0 : ℚ))⟩

/-- Python `int(...)` applied to a real value: truncation toward zero. -/
def pyInt (q : ℚ) : ℤ := if 0 ≤ q then ⌊q⌋ else -⌊-q⌋

/-- `svg_point_to_font(pt)` from `build.py`: x passes through unchanged;
y is flipped (`unitsPerEm - y`) when `svgYIsDown` and then shifted down
by `baselineSvgY`. -/
def svg_point_to_font (config : Config) (pt : Point) : Point :=
  let x := pt.1
  let y := pt.2
  let y_new : ℚ :=
    if config.svgYIsDown then (config.unitsPerEm - y) - config.baselineSvgY
    else y - config.baselineSvgY
  (x, y_new)

/-- The tolerance `eps=1e-6` used by `approx_equal` (its only call sites
use the default argument). -/
def EPS : ℚ := 1 / 1000000

/-- `approx_equal(pt1, pt2, eps=1e-6)` from `build.py`. -/
def approx_equal (pt1 pt2 : Point) : Bool :=
  decide (|pt1.1 - pt2.1| ≤ EPS) && decide (|pt1.2 - pt2.2| ≤ EPS)

/-- The typed path segments svgpathtools produces (`Line`,
`QuadraticBezier`, `CubicBezier`, `Arc`); `other` stands for any other
segment kind, which `_draw_segment` degrades to a line-to.  For an arc,
`as_cubic_curves()` is external collaborator geometry, so the already
decomposed cubics `(control1, control2, end)` travel with the segment. -/
inductive Seg where
  | line (start stop : Point)
  | quadratic (start control stop : Point)
  | cubic (start control1 control2 stop : Point)
  | arc (start stop : Point) (cubics : List (Point × Point × Point))
  | other (start stop : Point)
deriving DecidableEq, Inhabited

/-- `seg.start` in the Python code. -/
def Seg.start : Seg → Point
  | .line s _ => s
  | .quadratic s _ _ => s
  | .cubic s _ _ _ => s
  | .arc s _ _ => s
  | .other s _ => s

/-- `seg.end` in the Python code (`end` is reserved in Lean). -/
def Seg.stop : Seg → Point
  | .line _ e => e
  | .quadratic _ _ e => e
  | .cubic _ _ _ e => e
  | .arc _ e _ => e
  | .other _ e => e

/-- The operations a fontTools pen records. -/
inductive PenOp where
  | moveTo (p : Point)
  | lineTo (p : Point)
  | curveTo (c1 c2 p : Point)
  | closePath
  | endPath
deriving DecidableEq, Inhabited

/-- `_draw_segment(seg, pen)` from `build.py`, as the list of pen
operations it emits.  The quadratic case performs the exact degree
elevation `c1 = p0 + 2/3(q-p0)`, `c2 = p2 + 2/3(q-p2)` on the mapped
points. -/
def _draw_segment (config : Config) (seg : Seg) : List PenOp :=
  match seg with
  | .line _ e => [.lineTo (svg_point_to_font config e)]
  | .quadratic s q e =>
      let p0 := svg_point_to_font config s
      let q1 := svg_point_to_font config q
      let p2 := svg_point_to_font config e
      let c1 : Point := (p0.1 + 2/3 * (q1.1 - p0.1), p0.2 + 2/3 * (q1.2 - p0.2))
      let c2 : Point := (p2.1 + 2/3 * (q1.1 - p2.1), p2.2 + 2/3 * (q1.2 - p2.2))
      [.curveTo c1 c2 p2]
  | .cubic _ k1 k2 e =>
      [.curveTo (svg_point_to_font config k1) (svg_point_to_font config k2)
        (svg_point_to_font config e)]
  | .arc _ _ cubics =>
      cubics.map (fun c => PenOp.curveTo (svg_point_to_font config c.1)
        (svg_point_to_font config c.2.1) (svg_point_to_font config c.2.2))
  | .other _ e => [.lineTo (svg_point_to_font config e)]

/-- One iteration of the loop in `_split_into_contours`: state is
`(contours, current, prev_end)`. -/
def splitStep (config : Config) (st : List (List Seg) × List Seg × Option Point)
    (seg : Seg) : List (List Seg) × List Seg × Option Point :=
  let start := svg_point_to_font config seg.start
  let e := svg_point_to_font config seg.stop
  let contours := st.1
  let current := st.2.1
  let prev_end := st.2.2
  let next : List (List Seg) × List Seg :=
    match prev_end with
    | some pe =>
        if approx_equal start pe = false then
          if current ≠ [] then (contours ++ [current], []) else (contours, current)
        else (contours, current)
    | none => (contours, current)
  (next.1, next.2 ++ [seg], some e)

/-- `_split_into_contours(svg_path)` from `build.py`. -/
def _split_into_contours (config : Config) (svg_path : List Seg) : List (List Seg) :=
  if svg_path = [] then []
  else
    let fin := svg_path.foldl (splitStep config) ([], [], none)
    if fin.2.1 ≠ [] then fin.1 ++ [fin.2.1] else fin.1

/-- The body of the per-contour loop in `draw_svg_path_into_pen`: move
to the mapped start, draw every segment, then close or end the path
according to `approx_equal` on the mapped run start and the mapped end
of the last segment (empty runs are skipped, `if not segs: continue`). -/
def drawContourOps (config : Config) (segs : List Seg) : List PenOp :=
  match segs with
  | [] => []
  | s0 :: rest =>
      let start := svg_point_to_font config s0.start
      let end_pt := svg_point_to_font config ((s0 :: rest).getLast (List.cons_ne_nil s0 rest)).stop
      [PenOp.moveTo start] ++ ((s0 :: rest).flatMap (_draw_segment config)) ++
        [if approx_equal start end_pt then PenOp.closePath else PenOp.endPath]

/-- `draw_svg_path_into_pen(svg_path, pen)` from `build.py`. -/
def draw_svg_path_into_pen (config : Config) (svg_path : List Seg) : List PenOp :=
  (_split_into_contours config svg_path).foldl
    (fun ops segs => ops ++ drawContourOps config segs) []

/-- The dictionary `calculate_auto_sidebearings` returns. -/
structure SidebearingPlan where
  width : ℤ
  leftMargin : ℤ
  rightMargin : ℤ
  glyphWidth : ℤ
  glyphBounds : ℚ × ℚ
  svgMinX : ℚ
  offsetX : ℚ
deriving DecidableEq

/-- `calculate_auto_sidebearings(bbox, config, margin_units)` from
`build.py`; `None` exactly when `bbox` is falsy (the only falsy bbox the
caller can produce is `None`).  The `config` argument is unused by the
source function as well. -/
def calculate_auto_sidebearings (bbox : Option (ℚ × ℚ × ℚ × ℚ)) (_config : Config)
    (margin_units : ℚ) : Option SidebearingPlan :=
  match bbox with
  | none => none
  | some (min_x, _min_y, max_x, _max_y) =>
      let glyph_width := max_x - min_x
      let left_margin := margin_units
      let right_margin := margin_units
      let total_width := pyInt (left_margin + glyph_width + right_margin)
      some
        { width := total_width
          leftMargin := pyInt left_margin
          rightMargin := pyInt right_margin
          glyphWidth := pyInt glyph_width
          glyphBounds := (min_x, max_x)
          svgMinX := min_x
          offsetX := left_margin - min_x }

/-! ### Python string primitives

Python strings are sequences of code points, so every operation below is
defined on `String.data : List Char`, which matches Python slicing,
`in`/`split`, `zfill`, `upper`, `isdigit` and string comparison. -/

/-- Python `s[n:]` (slicing by code points). -/
def strDropCA (s : String) (n : ℕ) : String := ⟨s.data.drop n⟩

/-- Python `s.startswith(p)`. -/
def strStartsWithCA (s p : String) : Bool := decide (s.data.take p.data.length = p.data)

/-- Python `c.upper()` for a single ASCII character (the code applies it
to hexadecimal digit strings only). -/
def pyUpperChar (c : Char) : Char :=
  if 'a' ≤ c ∧ c ≤ 'z' then Char.ofNat (c.toNat - 32) else c

/-- Python `s.upper()`. -/
def pyUpper (s : String) : String := ⟨s.data.map pyUpperChar⟩

/-- Python `s.zfill(w)`: left-pad with `'0'` to length at least `w`
(the sign handling of `zfill` is irrelevant: the code applies it to
hex-digit and decimal-digit strings). -/
def zfillS (w : ℕ) (s : String) : String :=
  ⟨List.replicate (w - s.data.length) '0' ++ s.data⟩

/-- Python `s.isdigit()`: nonempty and all characters decimal digits. -/
def pyIsDigit (s : String) : Bool := !s.data.isEmpty && s.data.all Char.isDigit

/-- Helper for Python `s.split(sep)` with a nonempty separator:
left-to-right, non-overlapping.  `fuel` bounds the recursion; callers
pass `cs.length + 1`, which is always sufficient since every step
consumes at least one character of `cs`. -/
def splitOnGo (sep : List Char) : ℕ → List Char → List Char → List (List Char)
  | 0, cs, acc => [acc.reverse ++ cs]
  | fuel + 1, cs, acc =>
      if sep ≠ [] ∧ sep.isPrefixOf cs then
        acc.reverse :: splitOnGo sep fuel (cs.drop sep.length) []
      else
        match cs with
        | [] => [acc.reverse]
        | c :: rest => splitOnGo sep fuel rest (c :: acc)

/-- Python `s.split(sep)` for a nonempty separator. -/
def strSplitOn (s sep : String) : List String :=
  (splitOnGo sep.data (s.data.length + 1) s.data []).map (fun cs => ⟨cs⟩)

/-- Python `sep in s` (substring containment): `s.split(sep)` has at
least two parts exactly when the separator occurs. -/
def strContains (s sep : String) : Bool := decide (2 ≤ (strSplitOn s sep).length)

/-- Python string `<`, code-point lexicographic, on code-point lists. -/
def pyStrLtB : List Char → List Char → Bool
  | [], [] => false
  | [], _ :: _ => true
  | _ :: _, [] => false
  | a :: as, b :: bs => if a < b then true else if b < a then false else pyStrLtB as bs

/-- Python string `<=` (used by `sorted`), as a proposition. -/
def pyStrLe (a b : String) : Prop := pyStrLtB b.data a.data = false

instance (a b : String) : Decidable (pyStrLe a b) := by unfold pyStrLe; infer_instance

/-! ### Hexadecimal formatting (Python `f"{n:04X}"` / `f"{n:05X}"`) -/

/-- The uppercase hex digit for `n < 16`. -/
def hexDigitU (n : ℕ) : Char :=
  if n < 10 then Char.ofNat (48 + n) else Char.ofNat (55 + n)

/-- Hex digits of `n`, least significant first.  `fuel` bounds the
recursion; `n + 1` is always sufficient. -/
def hexRevFuel : ℕ → ℕ → List Char
  | 0, _ => []
  | fuel + 1, n =>
      if n < 16 then [hexDigitU n]
      else hexDigitU (n % 16) :: hexRevFuel fuel (n / 16)

/-- The uppercase hex digits of `n`, most significant first (Python
`f"{n:X}"`). -/
def upperHexDigits (n : ℕ) : List Char := (hexRevFuel (n + 1) n).reverse

/-- Python `f"{n:0wX}"`: uppercase hex, zero-padded to width at least `w`. -/
def upperHexPad (w : ℕ) (n : ℕ) : String :=
  ⟨List.replicate (w - (upperHexDigits n).length) '0' ++ upperHexDigits n⟩

/-- A character the claims call an "uppercase hex digit". -/
def isUpperHexChar (c : Char) : Prop := ('0' ≤ c ∧ c ≤ '9') ∨ ('A' ≤ c ∧ c ≤ 'F')

instance (c : Char) : Decidable (isUpperHexChar c) := by unfold isUpperHexChar; infer_instance

/-! ### Name resolution (`codepoint_from_name`, `production_name_from_cp`) -/

/-- A character matched by `[0-9A-Fa-f]` in `HEX_RE`/`UNICODE_RE`. -/
def isHexChar (c : Char) : Bool :=
  (decide ('0' ≤ c) && decide (c ≤ '9')) ||
  (decide ('A' ≤ c) && decide (c ≤ 'F')) ||
  (decide ('a' ≤ c) && decide (c ≤ 'f'))

/-- Numeric value of a hex digit character. -/
def hexCharVal (c : Char) : ℕ :=
  if '0' ≤ c ∧ c ≤ '9' then c.toNat - 48
  else if 'A' ≤ c ∧ c ≤ 'F' then c.toNat - 55
  else c.toNat - 87

/-- `int(s, 16)` for a hex-digit string. -/
def parseHex (s : String) : ℕ := s.data.foldl (fun acc c => 16 * acc + hexCharVal c) 0

/-- The anchored regex `^[0-9A-Fa-f]{4,6}$` (`HEX_RE`). -/
def matchesHexRE (s : String) : Bool :=
  decide (4 ≤ s.data.length) && decide (s.data.length ≤ 6) && s.data.all isHexChar

/-- `codepoint_from_name(name)` from `build.py`: strip everything after
the first `'.'`, then try `UNICODE_RE` (`^U\+[0-9A-Fa-f]{4,6}$`), plain
hex (`HEX_RE`), and finally a single character (its code point). -/
def codepoint_from_name (name : String) : Option ℕ :=
  let base : String := (strSplitOn name ".").headD ""
  if strStartsWithCA base "U+" && matchesHexRE (strDropCA base 2) then
    some (parseHex (strDropCA base 2))
  else if matchesHexRE base then
    some (parseHex base)
  else
    match base.data with
    | [c] => some c.toNat
    | _ => none

/-- `production_name_from_cp(cp)` from `build.py`:
`f"uni{cp:04X}"` for `cp ≤ 0xFFFF`, else `f"u{cp:05X}"`. -/
def production_name_from_cp (cp : ℕ) : String :=
  if cp ≤ 0xFFFF then "uni" ++ upperHexPad 4 cp
  else "u" ++ upperHexPad 5 cp

/-! ### Variant detection (`detect_alternate_glyphs`) -/

/-- `'stylistic_set'` / `'character_variant'` in the record's `'type'`. -/
inductive VarKind where
  | stylistic_set
  | character_variant
deriving DecidableEq, Inhabited

/-- The record `detect_alternate_glyphs` stores per alternate glyph
(`'file'` is the SVG stem). -/
structure VariantInfo where
  file : String
  base : String
  type : VarKind
  number : String
deriving DecidableEq, Inhabited

/-- Python dict assignment `d[k] = v` on an insertion-ordered
association list: overwrite in place if the key exists, else append. -/
def dictInsert {β : Type} (d : List (String × β)) (k : String) (v : β) :
    List (String × β) :=
  if d.any (fun p => p.1 = k) then
    d.map (fun p => if p.1 = k then (p.1, v) else p)
  else d ++ [(k, v)]

/-- The base-name canonicalization both branches of
`detect_alternate_glyphs` perform:
`f"uni{base_name[2:].upper().zfill(4)}"` when the base starts with
`"U+"`, otherwise the base unchanged. -/
def uniBaseOf (base_name : String) : String :=
  if strStartsWithCA base_name "U+" then
    "uni" ++ zfillS 4 (pyUpper (strDropCA base_name 2))
  else base_name

/-- `detect_alternate_glyphs(svg_dir)` from `build.py`, over the list of
SVG file stems in directory order.  A stem containing `-ss` that splits
into exactly two parts with a numeric tail yields a stylistic-set
record, else (`elif`) the same with `-cv` yields a character-variant
record; records land in a Python dict keyed by the canonical alternate
glyph name. -/
def detect_alternate_glyphs (stems : List String) : List (String × VariantInfo) :=
  stems.foldl
    (fun alternates name =>
      if strContains name "-ss" then
        match strSplitOn name "-ss" with
        | [base_name, set_number] =>
            if pyIsDigit set_number then
              dictInsert alternates (uniBaseOf base_name ++ ".ss" ++ zfillS 2 set_number)
                ⟨name, base_name, .stylistic_set, set_number⟩
            else alternates
        | _ => alternates
      else if strContains name "-cv" then
        match strSplitOn name "-cv" with
        | [base_name, cv_number] =>
            if pyIsDigit cv_number then
              dictInsert alternates (uniBaseOf base_name ++ ".cv" ++ zfillS 2 cv_number)
                ⟨name, base_name, .character_variant, cv_number⟩
            else alternates
        | _ => alternates
      else alternates)
    []

/-- How a glyph came to exist in the UFO. -/
inductive GlyphKind where
  | notdef
  | regular (cp : ℕ)
  | alternate (base : String)
  | fallbackSpace
deriving DecidableEq, Inhabited

/-- A glyph as `build_ufo` realizes it: its name and the `g.unicodes`
list assigned to it. -/
structure UGlyph where
  name : String
  unicodes : List ℕ
  kind : GlyphKind
deriving DecidableEq, Inhabited

/-- State of the regular-glyph loop: glyphs created so far (the font
`u`), the `processed_regulars` set, and the `has_space` flag. -/
structure RegSt where
  glyphs : List UGlyph
  processed_regulars : List String
  has_space : Bool
deriving DecidableEq, Inhabited

/-- The duplicate checks and glyph creation at the end of the
regular-glyph loop body: skip if the name was already processed or
already exists in the font, else create the glyph with
`g.unicodes = [cp]`. -/
def regularStepCore (st : RegSt) (gname : String) (cp : ℕ) : RegSt :=
  if gname ∈ st.processed_regulars then st
  else if st.glyphs.any (fun g => g.name = gname) then st
  else
    { st with
        glyphs := st.glyphs ++ [⟨gname, [cp], .regular cp⟩]
        processed_regulars := st.processed_regulars ++ [gname] }

/-- One iteration of the regular-glyph loop of `build_ufo`: skip
alternate files, skip unparseable stems, record `has_space` and name
the glyph (`space` for U+0020, production name otherwise), then run the
duplicate checks and creation. -/
def regularStep (alternate_files : List String) (st : RegSt) (stem : String) : RegSt :=
  if stem ∈ alternate_files then st
  else
    match codepoint_from_name stem with
    | none => st
    | some cp =>
        regularStepCore (if cp = 0x20 then { st with has_space := true } else st)
          (if cp = 0x20 then "space" else production_name_from_cp cp) cp

/-- One iteration of the alternate-glyph loop of `build_ufo`: skip
duplicate names, then create the glyph with no Unicode assignment. -/
def alternateStep (st : List UGlyph × List String) (p : String × VariantInfo) :
    List UGlyph × List String :=
  if p.1 ∈ st.2 then st
  else if st.1.any (fun g => g.name = p.1) then st
  else (st.1 ++ [⟨p.1, [], .alternate p.2.base⟩], st.2 ++ [p.1])

/-- The glyph set `build_ufo(family, style)` realizes, given the SVG
file stems: `.notdef` first, then regular glyphs over the sorted stems,
then the alternates, then the fallback `space` glyph (with
`sp.unicodes = [0x0020]`) when no source file mapped to U+0020. -/
def build_ufo (stems : List String) : List UGlyph :=
  let alternates := detect_alternate_glyphs stems
  let alternate_files := alternates.map (fun p => p.2.file)
  let sorted_stems := List.insertionSort (fun a b : String => pyStrLe a b) stems
  let st0 : RegSt := ⟨[⟨".notdef", [], .notdef⟩], [], false⟩
  let stReg := sorted_stems.foldl (regularStep alternate_files) st0
  let stAlt := alternates.foldl alternateStep (stReg.glyphs, [])
  if stReg.has_space then stAlt.1
  else stAlt.1 ++ [⟨"space", [0x20], .fallbackSpace⟩]

/-- Structural-recursion form of the `_split_into_contours` loop, used
to reason about it: given the currently open run `cur` and the mapped
end `pe` of its last segment, consume the remaining segments, flushing
the run whenever the next segment's mapped start is not approximately
equal to `pe`. -/
def splitChunks (config : Config) : List Seg → List Seg → Point → List (List Seg)
  | [], cur, _ => [cur]
  | s :: rest, cur, pe =>
      if approx_equal (svg_point_to_font config s.start) pe = false then
        cur :: splitChunks config rest [s] (svg_point_to_font config s.stop)
      else
        splitChunks config rest (cur ++ [s]) (svg_point_to_font config s.stop)

/-! ### Specification predicates (used by the claim theorems below) -/

/-- What claim C8 asserts of `_split_into_contours`: no empty contour,
the contours concatenate back to the input (segments walked in order,
final run emitted), consecutive segments inside one contour have
approximately equal mapped junction points, and consecutive contours
break exactly at a junction that is not approximately equal. -/
def SplitSpec (config : Config) (svg_path : List Seg) : Prop :=
  (∀ c ∈ _split_into_contours config svg_path, c ≠ []) ∧
  (_split_into_contours config svg_path).flatten = svg_path ∧
  (∀ c ∈ _split_into_contours config svg_path,
    List.Chain' (fun s t => approx_equal (svg_point_to_font config t.start)
      (svg_point_to_font config s.stop) = true) c) ∧
  List.Chain' (fun c1 c2 => ∀ x ∈ c1.getLast?, ∀ y ∈ c2.head?,
    approx_equal (svg_point_to_font config y.start)
      (svg_point_to_font config x.stop) = false) (_split_into_contours config svg_path)

/-- Claim C9's naming invariant for realized regular glyphs: the glyph
resolved from U+0020 is named `space`; any other regular glyph is named
by `production_name_from_cp`. -/
def RegNameOK (g : UGlyph) : Prop :=
  ∀ cp, g.kind = GlyphKind.regular cp →
    g.name = if cp = 0x20 then "space" else production_name_from_cp cp

/-- Claim C10's per-glyph invariant: alternates and `.notdef` carry no
Unicode assignment; a regular glyph carries exactly its resolved code
point; the synthesized fallback space carries exactly U+0020. -/
def UnicodeOK (g : UGlyph) : Prop :=
  match g.kind with
  | .notdef => g.unicodes = []
  | .regular cp => g.unicodes = [cp]
  | .alternate _ => g.unicodes = []
  | .fallbackSpace => g.unicodes = [0x20]

end FontBuild

namespace FontBuild

/-! ## Claim theorems -/

/-- C6 (confirmed).  For every configuration and source point (x, y),
`svg_point_to_font` returns x unchanged, and
`y' = unitsPerEm - y - baselineSvgY` when the vertical-flip flag
(`svgYIsDown`) is set, else `y' = y - baselineSvgY`.  The function is a
total Lean function, so it is pure and total by construction. -/
theorem svg_point_to_font_spec (config : Config) (x y : ℚ) :
    (svg_point_to_font config (x, y)).1 = x ∧
    (config.svgYIsDown = true →
      (svg_point_to_font config (x, y)).2 =
        config.unitsPerEm - y - config.baselineSvgY) ∧
    (config.svgYIsDown = false →
      (svg_point_to_font config (x, y)).2 = y - config.baselineSvgY) := by
  refine ⟨rfl, fun h => ?_, fun h => ?_⟩ <;> simp [svg_point_to_font, h]

/-- Witness for C6 at a concrete configuration and point, both flag
values. -/
theorem svg_point_to_font_spec_witness :
    (svg_point_to_font ⟨1000, 200, true⟩ (3, 40)).2 = 1000 - 40 - 200 ∧
    (svg_point_to_font ⟨1000, 200, false⟩ (3, 40)).2 = 40 - 200 ∧
    (svg_point_to_font ⟨1000, 200, true⟩ (3, 40)).1 = 3 :=
  ⟨(svg_point_to_font_spec ⟨1000, 200, true⟩ 3 40).2.1 rfl,
   (svg_point_to_font_spec ⟨1000, 200, false⟩ 3 40).2.2 rfl,
   (svg_point_to_font_spec ⟨1000, 200, true⟩ 3 40).1⟩

/-- C5 (confirmed).  For every quadratic segment, `_draw_segment` emits
exactly one cubic operation whose control points are the exact
degree elevation `c1 = p0 + 2/3(q - p0)`, `c2 = p2 + 2/3(q - p2)` of
the mapped points; and for p0=(0,0), q=(50,100), p2=(100,0) (mapped
identically) the controls are exactly (100/3, 200/3) and
(200/3, 200/3), i.e. (33.33…, 66.66…) and (66.66…, 66.66…). -/
theorem quadratic_elevation_exact (config : Config) (p0 q p2 : Point) :
    (_draw_segment config (.quadratic p0 q p2) =
      [PenOp.curveTo
        ((svg_point_to_font config p0).1 +
            2/3 * ((svg_point_to_font config q).1 - (svg_point_to_font config p0).1),
         (svg_point_to_font config p0).2 +
            2/3 * ((svg_point_to_font config q).2 - (svg_point_to_font config p0).2))
        ((svg_point_to_font config p2).1 +
            2/3 * ((svg_point_to_font config q).1 - (svg_point_to_font config p2).1),
         (svg_point_to_font config p2).2 +
            2/3 * ((svg_point_to_font config q).2 - (svg_point_to_font config p2).2))
        (svg_point_to_font config p2)]) ∧
    _draw_segment ⟨1000, 0, false⟩ (.quadratic (0, 0) (50, 100) (100, 0)) =
      [PenOp.curveTo (100/3, 200/3) (200/3, 200/3) (100, 0)] := by
  refine ⟨rfl, ?_⟩
  norm_num [_draw_segment, svg_point_to_font]

/-- C4 (corrected).  With the bounding box present, the plan's width is
the Python `int(...)` truncation of `margin + (maxX - minX) + margin`,
which equals the claimed floor whenever that sum is nonnegative;
left and right margins are the truncated margin, the horizontal offset
is `margin - minX`, and the plan is absent exactly when the bounding
box is absent. -/
theorem auto_sidebearings_spec (config : Config) (min_x min_y max_x max_y m : ℚ)
    (h : 0 ≤ m + (max_x - min_x) + m) :
    calculate_auto_sidebearings (some (min_x, min_y, max_x, max_y)) config m =
      some
        { width := ⌊m + (max_x - min_x) + m⌋
          leftMargin := pyInt m
          rightMargin := pyInt m
          glyphWidth := pyInt (max_x - min_x)
          glyphBounds := (min_x, max_x)
          svgMinX := min_x
          offsetX := m - min_x } ∧
    calculate_auto_sidebearings none config m = none := by
  have hw : pyInt (m + (max_x - min_x) + m) = ⌊m + (max_x - min_x) + m⌋ := by
    rw [pyInt, if_pos h]
  refine ⟨?_, rfl⟩
  simp only [calculate_auto_sidebearings, hw]

/-- Witness for C4 (amended) at the claim's own example: bbox
(10, 0, 90, 100) with margin 5 yields width 90, margins 5 and 5, and
horizontal offset −5. -/
theorem auto_sidebearings_spec_witness :
    (calculate_auto_sidebearings (some (10, 0, 90, 100)) ⟨1000, 200, true⟩ 5).map
      (fun p => (p.width, p.leftMargin, p.rightMargin, p.offsetX)) =
      some (90, 5, 5, -5) := by
  have h := auto_sidebearings_spec ⟨1000, 200, true⟩ 10 0 90 100 5 (by norm_num)
  rw [h.1]
  norm_num [pyInt]

/-- Counterexample to C4 as stated: for bbox (0, 0, 1/2, 1) and margin
−1 the code's width is `int(-3/2) = -1` (truncation toward zero) while
the claimed `floor(-3/2)` is −2. -/
theorem auto_sidebearings_floor_counterexample :
    (calculate_auto_sidebearings (some (0, 0, 1/2, 1)) ⟨1000, 200, true⟩ (-1)).map
      SidebearingPlan.width = some (-1) ∧
    ⌊(-1 : ℚ) + (1/2 - 0) + (-1)⌋ = -2 ∧ ((-1 : ℤ) ≠ -2) := by
  refine ⟨?_, by norm_num, by decide⟩
  norm_num [calculate_auto_sidebearings, pyInt]

/-- Every digit emitted by `hexDigitU` below 16 is an uppercase hex
character. -/
theorem hexDigitU_upper : ∀ n < 16, isUpperHexChar (hexDigitU n) := by decide

/-- Every character `hexRevFuel` emits is an uppercase hex character. -/
theorem hexRevFuel_chars : ∀ fuel n, ∀ c ∈ hexRevFuel fuel n, isUpperHexChar c := by
  intro fuel
  induction fuel with
  | zero => intro n c hc; simp [hexRevFuel] at hc
  | succ f ih =>
      intro n c hc
      by_cases hn : n < 16
      · simp [hexRevFuel, hn] at hc
        exact hc ▸ hexDigitU_upper n hn
      · simp [hexRevFuel, hn] at hc
        rcases hc with hc | hc
        · exact hc ▸ hexDigitU_upper _ (Nat.mod_lt _ (by norm_num))
        · exact ih _ c hc

/-- `hexRevFuel` emits at most `k` digits for inputs below `16 ^ k`
(given enough fuel to terminate). -/
theorem hexRevFuel_length_le :
    ∀ fuel k n, 1 ≤ k → n < 16 ^ k → n < 16 ^ fuel →
      (hexRevFuel fuel n).length ≤ k := by
  intro fuel
  induction fuel with
  | zero => intro k n _ _ _; simp [hexRevFuel]
  | succ f ih =>
      intro k n hk hnk hnf
      by_cases hn : n < 16
      · simpa [hexRevFuel, hn] using hk
      · match k, hk with
        | k' + 1, _ =>
            have hk' : 1 ≤ k' := by
              by_contra hc
              have : k' = 0 := by omega
              subst this
              simp at hnk
              omega
            have h1 : n / 16 < 16 ^ k' := by
              rw [Nat.div_lt_iff_lt_mul (by norm_num)]
              calc n < 16 ^ (k' + 1) := hnk
                _ = 16 ^ k' * 16 := by rw [pow_succ]
            have h2 : n / 16 < 16 ^ f := by
              rw [Nat.div_lt_iff_lt_mul (by norm_num)]
              calc n < 16 ^ (f + 1) := hnf
                _ = 16 ^ f * 16 := by rw [pow_succ]
            simp only [hexRevFuel, if_neg hn, List.length_cons]
            exact Nat.succ_le_succ (ih k' (n / 16) hk' h1 h2)

/-- `f"{n:X}"` has at most `k` digits for `n < 16 ^ k`. -/
theorem upperHexDigits_length_le (k n : ℕ) (hk : 1 ≤ k) (h : n < 16 ^ k) :
    (upperHexDigits n).length ≤ k := by
  rw [upperHexDigits, List.length_reverse]
  refine hexRevFuel_length_le (n + 1) k n hk h ?_
  calc n < 16 ^ n := Nat.lt_pow_self (by norm_num) n
    _ ≤ 16 ^ (n + 1) := Nat.pow_le_pow_right (by norm_num) (Nat.le_succ n)

/-- Padding to width `w` yields exactly `w` characters when the bare
digits fit. -/
theorem upperHexPad_length (w n : ℕ) (h : (upperHexDigits n).length ≤ w) :
    (upperHexPad w n).data.length = w := by
  simp only [upperHexPad, List.length_append, List.length_replicate]
  omega

/-- Every character of `f"{n:0wX}"` is an uppercase hex character. -/
theorem upperHexPad_chars (w n : ℕ) :
    ∀ c ∈ (upperHexPad w n).data, isUpperHexChar c := by
  intro c hc
  simp only [upperHexPad, List.mem_append, List.mem_replicate] at hc
  rcases hc with ⟨-, hc⟩ | hc
  · exact hc ▸ (by decide : isUpperHexChar '0')
  · rw [upperHexDigits, List.mem_reverse] at hc
    exact hexRevFuel_chars _ _ c hc

/-- `c.upper()` fixes uppercase hex characters. -/
theorem pyUpperChar_fix (c : Char) (h : isUpperHexChar c) : pyUpperChar c = c := by
  rw [pyUpperChar, if_neg]
  rintro ⟨h1, -⟩
  rcases h with ⟨-, h2⟩ | ⟨-, h2⟩
  · exact absurd (le_trans h1 h2) (by decide)
  · exact absurd (le_trans h1 h2) (by decide)

/-- `s.upper()` fixes strings of uppercase hex characters. -/
theorem pyUpper_fix (s : String) (h : ∀ c ∈ s.data, isUpperHexChar c) :
    pyUpper s = s := by
  apply String.ext
  show s.data.map pyUpperChar = s.data
  calc s.data.map pyUpperChar = s.data.map id :=
        List.map_congr_left (fun c hc => pyUpperChar_fix c (h c hc))
    _ = s.data := List.map_id s.data

/-- Python `("U+" + s)[2:] = s`. -/
theorem strDrop_Uplus (s : String) : strDropCA ("U+" ++ s) 2 = s := rfl

/-- Python `("U+" + s).startswith("U+")`. -/
theorem strStartsWith_Uplus (s : String) : strStartsWithCA ("U+" ++ s) "U+" = true := rfl

/-- `zfill(w)` fixes a string already of length `w`. -/
theorem zfillS_of_length (w : ℕ) (s : String) (h : s.data.length = w) :
    zfillS w s = s := by
  apply String.ext
  simp [zfillS, h]

/-- C3 (corrected).  For a `U+` designator written with 4 hex digits
(codepoint ≤ 0xFFFF), the canonical base stored by
`detect_alternate_glyphs` coincides with `production_name_from_cp`.
(For 5–6 digit designators it does not: see the counterexample.) -/
theorem uniBase_matches_production_bmp (cp : ℕ) (h : cp ≤ 0xFFFF) :
    uniBaseOf ("U+" ++ upperHexPad 4 cp) = production_name_from_cp cp := by
  have hl : (upperHexPad 4 cp).data.length = 4 :=
    upperHexPad_length 4 cp
      (upperHexDigits_length_le 4 cp (by norm_num)
        (lt_of_le_of_lt h (by norm_num : (0xFFFF : ℕ) < 16 ^ 4)))
  rw [uniBaseOf, if_pos (strStartsWith_Uplus (upperHexPad 4 cp)), strDrop_Uplus,
    pyUpper_fix _ (upperHexPad_chars 4 cp), zfillS_of_length 4 _ hl,
    production_name_from_cp, if_pos h]

/-- Witness for C3 (amended) at U+0061. -/
theorem uniBase_matches_production_bmp_witness :
    uniBaseOf ("U+" ++ upperHexPad 4 0x61) = production_name_from_cp 0x61 ∧
    uniBaseOf "U+0061" = "uni0061" ∧ production_name_from_cp 0x61 = "uni0061" :=
  ⟨uniBase_matches_production_bmp 0x61 (by norm_num), by decide, by decide⟩

/-- Counterexample to C3 as stated: for the 5-digit designator
`U+1F600` (codepoint above 0xFFFF) the detector canonicalizes to
`uni1F600`, not to the production name `u1F600`; the realized variant
record is keyed `uni1F600.ss01`. -/
theorem uniBase_supplementary_mismatch :
    uniBaseOf "U+1F600" = "uni1F600" ∧
    codepoint_from_name "U+1F600" = some 0x1F600 ∧
    production_name_from_cp 0x1F600 = "u1F600" ∧
    uniBaseOf "U+1F600" ≠ production_name_from_cp 0x1F600 ∧
    (detect_alternate_glyphs ["U+1F600-ss01"]).map Prod.fst = ["uni1F600.ss01"] := by
  refine ⟨by decide, by decide, by decide, by decide, by decide⟩

/-- C2 (code bug).  Two stems that canonicalize to the same alternate
name: the earlier one alone produces the `U+0061`-based record; adding
the later stem leaves a single record whose payload is the later one —
the dict assignment in `detect_alternate_glyphs` silently overwrote the
earlier record, and no diagnostic/rejection path exists there. -/
theorem detect_silent_overwrite :
    detect_alternate_glyphs ["U+0061-ss01"] =
      [("uni0061.ss01", ⟨"U+0061-ss01", "U+0061", .stylistic_set, "01"⟩)] ∧
    detect_alternate_glyphs ["U+0061-ss01", "uni0061-ss01"] =
      [("uni0061.ss01", ⟨"uni0061-ss01", "uni0061", .stylistic_set, "01"⟩)] ∧
    (⟨"U+0061-ss01", "U+0061", VarKind.stylistic_set, "01"⟩ : VariantInfo) ≠
      ⟨"uni0061-ss01", "uni0061", .stylistic_set, "01"⟩ := by
  refine ⟨by decide, by decide, by decide⟩

/-- C7 (confirmed).  A contour run is emitted closed (its operation
list ends with `closePath`) exactly when the mapped first point of the
run and the mapped end of its last segment are approximately equal
(`approx_equal`, epsilon 1e-6 per axis); otherwise it ends with
`endPath`.  The comparison happens on mapped coordinates. -/
theorem contour_close_policy (config : Config) (segs : List Seg) (h : segs ≠ []) :
    (drawContourOps config segs).getLast? =
      some (if approx_equal (svg_point_to_font config (segs.head h).start)
                (svg_point_to_font config (segs.getLast h).stop)
            then PenOp.closePath else PenOp.endPath) ∧
    ((drawContourOps config segs).getLast? = some PenOp.closePath ↔
      approx_equal (svg_point_to_font config (segs.head h).start)
        (svg_point_to_font config (segs.getLast h).stop) = true) := by
  obtain ⟨s0, rest, rfl⟩ := List.exists_cons_of_ne_nil h
  have h1 : (drawContourOps config (s0 :: rest)).getLast? =
      some (if approx_equal (svg_point_to_font config ((s0 :: rest).head h).start)
                (svg_point_to_font config ((s0 :: rest).getLast h).stop)
            then PenOp.closePath else PenOp.endPath) := by
    simp only [drawContourOps]
    rw [List.getLast?_concat]
    rfl
  refine ⟨h1, ?_⟩
  rw [h1]
  by_cases hb : approx_equal (svg_point_to_font config ((s0 :: rest).head h).start)
      (svg_point_to_font config ((s0 :: rest).getLast h).stop) = true
  · simp [hb]
  · simp only [Bool.not_eq_true] at hb
    simp [hb]

/-- Witness for C7: a run returning exactly to its start is closed; a
run whose final point is shifted by 1e-3 (larger than the 1e-6 epsilon)
is open. -/
theorem contour_close_policy_witness :
    (drawContourOps ⟨1000, 0, false⟩
        [.line (0, 0) (10, 0), .line (10, 0) (0, 0)]).getLast? = some PenOp.closePath ∧
    (drawContourOps ⟨1000, 0, false⟩
        [.line (0, 0) (10, 0), .line (10, 0) (0, 1/1000)]).getLast? = some PenOp.endPath := by
  constructor
  · have h := (contour_close_policy ⟨1000, 0, false⟩
      [.line (0, 0) (10, 0), .line (10, 0) (0, 0)] (by simp)).1
    have hval : (drawContourOps ⟨1000, 0, false⟩
        [.line (0, 0) (10, 0), .line (10, 0) (0, 0)]).getLast? =
        some (if approx_equal (svg_point_to_font ⟨1000, 0, false⟩ (0, 0))
                  (svg_point_to_font ⟨1000, 0, false⟩ (0, 0))
              then PenOp.closePath else PenOp.endPath) := h
    rw [hval]
    norm_num [approx_equal, svg_point_to_font, EPS]
  · have h := (contour_close_policy ⟨1000, 0, false⟩
      [.line (0, 0) (10, 0), .line (10, 0) (0, 1/1000)] (by simp)).1
    have hval : (drawContourOps ⟨1000, 0, false⟩
        [.line (0, 0) (10, 0), .line (10, 0) (0, 1/1000)]).getLast? =
        some (if approx_equal (svg_point_to_font ⟨1000, 0, false⟩ (0, 0))
                  (svg_point_to_font ⟨1000, 0, false⟩ (0, 1/1000))
              then PenOp.closePath else PenOp.endPath) := h
    rw [hval]
    norm_num [approx_equal, svg_point_to_font, EPS]
    intro hx
    rw [show |(1 : ℚ)/1000| = 1/1000 from abs_of_nonneg (by norm_num)] at hx
    norm_num at hx

/-- The loop of `_split_into_contours`, started on a nonempty open run,
computes `splitChunks`. -/
theorem splitStep_foldl (config : Config) :
    ∀ (rest : List Seg) (contours : List (List Seg)) (cur : List Seg) (pe : Point),
      cur ≠ [] →
      (if (rest.foldl (splitStep config) (contours, cur, some pe)).2.1 ≠ [] then
        (rest.foldl (splitStep config) (contours, cur, some pe)).1 ++
          [(rest.foldl (splitStep config) (contours, cur, some pe)).2.1]
      else (rest.foldl (splitStep config) (contours, cur, some pe)).1)
        = contours ++ splitChunks config rest cur pe := by
  intro rest
  induction rest with
  | nil =>
      intro contours cur pe hcur
      simp [splitChunks, hcur]
  | cons s rest ih =>
      intro contours cur pe hcur
      rw [List.foldl_cons]
      by_cases hap : approx_equal (svg_point_to_font config s.start) pe = false
      · have hstep : splitStep config (contours, cur, some pe) s =
            (contours ++ [cur], [s], some (svg_point_to_font config s.stop)) := by
          simp [splitStep, hap, hcur]
        rw [hstep, ih (contours ++ [cur]) [s] _ (by simp)]
        simp [splitChunks, hap]
      · have hstep : splitStep config (contours, cur, some pe) s =
            (contours, cur ++ [s], some (svg_point_to_font config s.stop)) := by
          simp [splitStep, hap]
        rw [hstep, ih contours (cur ++ [s]) _ (by simp)]
        simp [splitChunks, hap]

/-- `_split_into_contours` on a nonempty path is `splitChunks` started
from a run holding the first segment. -/
theorem split_eq_chunks (config : Config) (s0 : Seg) (rest : List Seg) :
    _split_into_contours config (s0 :: rest) =
      splitChunks config rest [s0] (svg_point_to_font config s0.stop) := by
  have h0 : splitStep config ([], [], none) s0 =
      ([], [s0], some (svg_point_to_font config s0.stop)) := by
    simp [splitStep]
  have := splitStep_foldl config rest [] [s0] (svg_point_to_font config s0.stop) (by simp)
  rw [_split_into_contours, if_neg (by simp), List.foldl_cons, h0]
  simpa using this

/-- `splitChunks` never emits an empty contour (its open run stays
nonempty). -/
theorem splitChunks_ne_nil (config : Config) :
    ∀ (rest cur : List Seg) (pe : Point), cur ≠ [] →
      ∀ c ∈ splitChunks config rest cur pe, c ≠ [] := by
  intro rest
  induction rest with
  | nil =>
      intro cur pe hcur c hc
      simp [splitChunks] at hc
      exact hc ▸ hcur
  | cons s rest ih =>
      intro cur pe hcur c hc
      by_cases hap : approx_equal (svg_point_to_font config s.start) pe = false
      · simp only [splitChunks, if_pos hap, List.mem_cons] at hc
        rcases hc with hc | hc
        · exact hc ▸ hcur
        · exact ih [s] _ (by simp) c hc
      · simp only [splitChunks, if_neg hap] at hc
        exact ih (cur ++ [s]) _ (by simp) c hc

/-- The contours of `splitChunks` concatenate back to the input. -/
theorem splitChunks_flatten (config : Config) :
    ∀ (rest cur : List Seg) (pe : Point),
      (splitChunks config rest cur pe).flatten = cur ++ rest := by
  intro rest
  induction rest with
  | nil => intro cur pe; simp [splitChunks]
  | cons s rest ih =>
      intro cur pe
      by_cases hap : approx_equal (svg_point_to_font config s.start) pe = false
      · simp [splitChunks, if_pos hap, ih]
      · simp [splitChunks, if_neg hap, ih]

/-- Inside each contour `splitChunks` emits, consecutive segments have
approximately equal mapped junctions. -/
theorem splitChunks_chain (config : Config) :
    ∀ (rest cur : List Seg) (pe : Point),
      List.Chain' (fun s t => approx_equal (svg_point_to_font config t.start)
        (svg_point_to_font config s.stop) = true) cur →
      (∀ x ∈ cur.getLast?, svg_point_to_font config x.stop = pe) →
      ∀ c ∈ splitChunks config rest cur pe,
        List.Chain' (fun s t => approx_equal (svg_point_to_font config t.start)
          (svg_point_to_font config s.stop) = true) c := by
  intro rest
  induction rest with
  | nil =>
      intro cur pe hchain _ c hc
      simp [splitChunks] at hc
      exact hc ▸ hchain
  | cons s rest ih =>
      intro cur pe hchain hlast c hc
      by_cases hap : approx_equal (svg_point_to_font config s.start) pe = false
      · simp only [splitChunks, if_pos hap, List.mem_cons] at hc
        rcases hc with hc | hc
        · exact hc ▸ hchain
        · exact ih [s] _ (List.chain'_singleton s) (by simp) c hc
      · simp only [splitChunks, if_neg hap] at hc
        have hap' : approx_equal (svg_point_to_font config s.start) pe = true := by
          revert hap
          cases approx_equal (svg_point_to_font config s.start) pe <;> simp
        refine ih (cur ++ [s]) _ ?_ (by simp) c hc
        refine List.Chain'.append hchain (List.chain'_singleton s) ?_
        intro x hx y hy
        simp at hy
        subst hy
        rw [hlast x hx]
        exact hap'

/-- The first contour `splitChunks` emits extends the open run. -/
theorem splitChunks_first (config : Config) :
    ∀ (rest cur : List Seg) (pe : Point),
      ∃ t tail, splitChunks config rest cur pe = (cur ++ t) :: tail := by
  intro rest
  induction rest with
  | nil => intro cur pe; exact ⟨[], [], by simp [splitChunks]⟩
  | cons s rest ih =>
      intro cur pe
      by_cases hap : approx_equal (svg_point_to_font config s.start) pe = false
      · exact ⟨[], splitChunks config rest [s] (svg_point_to_font config s.stop),
          by simp [splitChunks, if_pos hap]⟩
      · obtain ⟨t, tail, ht⟩ := ih (cur ++ [s]) (svg_point_to_font config s.stop)
        refine ⟨[s] ++ t, tail, ?_⟩
        rw [splitChunks, if_neg hap, ht, List.append_assoc]

/-- Consecutive contours emitted by `splitChunks` break exactly at a
junction whose mapped points are not approximately equal. -/
theorem splitChunks_boundary (config : Config) :
    ∀ (rest cur : List Seg) (pe : Point),
      (∀ x ∈ cur.getLast?, svg_point_to_font config x.stop = pe) →
      List.Chain' (fun c1 c2 => ∀ x ∈ c1.getLast?, ∀ y ∈ c2.head?,
        approx_equal (svg_point_to_font config y.start)
          (svg_point_to_font config x.stop) = false)
        (splitChunks config rest cur pe) := by
  intro rest
  induction rest with
  | nil => intro cur pe _; simp [splitChunks]
  | cons s rest ih =>
      intro cur pe hlast
      by_cases hap : approx_equal (svg_point_to_font config s.start) pe = false
      · rw [splitChunks, if_pos hap]
        rw [List.chain'_cons']
        constructor
        · intro b hb x hx y hy
          obtain ⟨t, tail, ht⟩ := splitChunks_first config rest [s]
            (svg_point_to_font config s.stop)
          rw [ht] at hb
          simp at hb
          subst hb
          simp at hy
          subst hy
          rw [hlast x hx]
          exact hap
        · exact ih [s] _ (by simp)
      · rw [splitChunks, if_neg hap]
        exact ih (cur ++ [s]) _ (by simp)

/-- C8 (confirmed).  `_split_into_contours` walks the segments in
order: contours concatenate back to the input, no contour is empty,
junctions inside a contour are approximately equal on mapped
coordinates, and each break between consecutive contours happens at a
junction that is not approximately equal. -/
theorem split_contours_spec (config : Config) (svg_path : List Seg) :
    SplitSpec config svg_path := by
  cases svg_path with
  | nil =>
      have hnil : _split_into_contours config [] = [] := by
        rw [_split_into_contours, if_pos rfl]
      refine ⟨?_, ?_, ?_, ?_⟩ <;> simp [hnil]
  | cons s0 rest =>
      rw [SplitSpec, split_eq_chunks]
      refine ⟨splitChunks_ne_nil config rest [s0] _ (by simp), ?_,
        splitChunks_chain config rest [s0] _ (List.chain'_singleton s0) (by simp),
        splitChunks_boundary config rest [s0] _ (by simp)⟩
      rw [splitChunks_flatten]
      rfl

/-- Witness for C8 at the claim's example: two line segments A→B and
C→D with B and C further apart than epsilon yield two contours of one
segment each. -/
theorem split_contours_spec_witness :
    SplitSpec ⟨1000, 0, false⟩ [.line (0, 0) (1, 1), .line (5, 5) (6, 6)] ∧
    _split_into_contours ⟨1000, 0, false⟩ [.line (0, 0) (1, 1), .line (5, 5) (6, 6)] =
      [[.line (0, 0) (1, 1)], [.line (5, 5) (6, 6)]] := by
  refine ⟨split_contours_spec _ _, ?_⟩
  rw [split_eq_chunks]
  have hap : approx_equal (svg_point_to_font ⟨1000, 0, false⟩ (Seg.line (5, 5) (6, 6)).start)
      (svg_point_to_font ⟨1000, 0, false⟩ ((Seg.line (0, 0) (1, 1)).stop)) = false := by
    norm_num [approx_equal, svg_point_to_font, EPS, Seg.start, Seg.stop]
  rw [splitChunks, if_pos hap, splitChunks]

/-- A property preserved by every step of a fold holds of its result. -/
theorem foldl_preserves {α β : Type} (P : α → Prop) (f : α → β → α)
    (hf : ∀ a b, P a → P (f a b)) : ∀ (l : List β) (a : α), P a → P (l.foldl f a) := by
  intro l
  induction l with
  | nil => intro a ha; exact ha
  | cons x xs ih => intro a ha; exact ih _ (hf a x ha)

/-- The core creation step preserves the Unicode invariant: the only
glyph it may add is a regular glyph carrying exactly its resolved code
point. -/
theorem regularStepCore_inv (st : RegSt) (gname : String) (cp : ℕ)
    (h : ∀ g ∈ st.glyphs, UnicodeOK g) :
    ∀ g ∈ (regularStepCore st gname cp).glyphs, UnicodeOK g := by
  intro g hg
  unfold regularStepCore at hg
  split at hg
  · exact h g hg
  · split at hg
    · exact h g hg
    · rcases List.mem_append.mp hg with hg | hg
      · exact h g hg
      · simp only [List.mem_singleton] at hg
        subst hg
        rfl

/-- Each regular-glyph iteration preserves the Unicode invariant. -/
theorem regularStep_inv (af : List String) (st : RegSt) (stem : String)
    (h : ∀ g ∈ st.glyphs, UnicodeOK g) :
    ∀ g ∈ (regularStep af st stem).glyphs, UnicodeOK g := by
  intro g hg
  unfold regularStep at hg
  by_cases h1 : stem ∈ af
  · rw [if_pos h1] at hg
    exact h g hg
  · rw [if_neg h1] at hg
    cases hcp : codepoint_from_name stem with
    | none => rw [hcp] at hg; exact h g hg
    | some cp =>
        rw [hcp] at hg
        refine regularStepCore_inv _ _ cp ?_ g hg
        intro g' hg'
        have hglyphs : (if cp = 0x20 then { st with has_space := true } else st).glyphs
            = st.glyphs := by split <;> rfl
        rw [hglyphs] at hg'
        exact h g' hg'

/-- Each alternate-glyph iteration preserves the invariant: the only
glyph it may add is an alternate with no Unicode assignment. -/
theorem alternateStep_inv (st : List UGlyph × List String) (p : String × VariantInfo)
    (h : ∀ g ∈ st.1, UnicodeOK g) :
    ∀ g ∈ (alternateStep st p).1, UnicodeOK g := by
  intro g hg
  unfold alternateStep at hg
  split at hg
  · exact h g hg
  · split at hg
    · exact h g hg
    · rcases List.mem_append.mp hg with hg | hg
      · exact h g hg
      · simp only [List.mem_singleton] at hg
        subst hg
        rfl

/-- C10 (confirmed).  Every glyph `build_ufo` realizes satisfies the
Unicode-assignment invariant: alternates and `.notdef` carry no Unicode
codepoint; a regular glyph carries exactly the single code point
resolved from its filename; the synthesized fallback space carries
exactly U+0020. -/
theorem unicode_assignment_invariant (stems : List String) :
    ∀ g ∈ build_ufo stems, UnicodeOK g := by
  intro g hg
  unfold build_ufo at hg
  simp only at hg
  have hreg : ∀ g ∈ ((List.insertionSort (fun a b : String => pyStrLe a b) stems).foldl
      (regularStep ((detect_alternate_glyphs stems).map (fun p => p.2.file)))
      ⟨[⟨".notdef", [], .notdef⟩], [], false⟩).glyphs, UnicodeOK g := by
    apply foldl_preserves (fun st : RegSt => ∀ g ∈ st.glyphs, UnicodeOK g)
      _ (fun a b ha => regularStep_inv _ a b ha)
    intro g hg0
    simp only [List.mem_singleton] at hg0
    subst hg0
    rfl
  have halt : ∀ g ∈ ((detect_alternate_glyphs stems).foldl alternateStep
      (((List.insertionSort (fun a b : String => pyStrLe a b) stems).foldl
        (regularStep ((detect_alternate_glyphs stems).map (fun p => p.2.file)))
        ⟨[⟨".notdef", [], .notdef⟩], [], false⟩).glyphs, [])).1, UnicodeOK g := by
    apply foldl_preserves (fun stp : List UGlyph × List String => ∀ g ∈ stp.1, UnicodeOK g)
      _ (fun a b ha => alternateStep_inv a b ha)
    exact hreg
  by_cases hs : ((List.insertionSort (fun a b : String => pyStrLe a b) stems).foldl
      (regularStep ((detect_alternate_glyphs stems).map (fun p => p.2.file)))
      ⟨[⟨".notdef", [], .notdef⟩], [], false⟩).has_space = true
  · rw [if_pos hs] at hg
    exact halt g hg
  · rw [if_neg hs] at hg
    rcases List.mem_append.mp hg with hg | hg
    · exact halt g hg
    · simp only [List.mem_singleton] at hg
      subst hg
      rfl

/-- Witness for C10: on the concrete input `["0041"]` the realized
regular glyph `uni0041` carries exactly `[0x41]`. -/
theorem unicode_assignment_invariant_witness :
    UnicodeOK ⟨"uni0041", [0x41], .regular 0x41⟩ ∧
    (⟨"uni0041", [0x41], GlyphKind.regular 0x41⟩ : UGlyph) ∈ build_ufo ["0041"] :=
  ⟨unicode_assignment_invariant ["0041"] ⟨"uni0041", [0x41], .regular 0x41⟩ (by decide),
   by decide⟩

/-- The core creation step preserves the naming invariant when called
with the name the regular loop computes for the code point. -/
theorem regularStepCore_name (st : RegSt) (gname : String) (cp : ℕ)
    (hg : gname = if cp = 0x20 then "space" else production_name_from_cp cp)
    (h : ∀ g ∈ st.glyphs, RegNameOK g) :
    ∀ g ∈ (regularStepCore st gname cp).glyphs, RegNameOK g := by
  intro g hgm
  unfold regularStepCore at hgm
  split at hgm
  · exact h g hgm
  · split at hgm
    · exact h g hgm
    · rcases List.mem_append.mp hgm with hgm | hgm
      · exact h g hgm
      · simp only [List.mem_singleton] at hgm
        subst hgm
        intro c hk
        injection hk with hcc
        subst hcc
        exact hg

/-- Each regular-glyph iteration preserves the naming invariant. -/
theorem regularStep_name (af : List String) (st : RegSt) (stem : String)
    (h : ∀ g ∈ st.glyphs, RegNameOK g) :
    ∀ g ∈ (regularStep af st stem).glyphs, RegNameOK g := by
  intro g hg
  unfold regularStep at hg
  by_cases h1 : stem ∈ af
  · rw [if_pos h1] at hg
    exact h g hg
  · rw [if_neg h1] at hg
    cases hcp : codepoint_from_name stem with
    | none => rw [hcp] at hg; exact h g hg
    | some cp =>
        rw [hcp] at hg
        refine regularStepCore_name _ _ cp rfl ?_ g hg
        intro g' hg'
        have hglyphs : (if cp = 0x20 then { st with has_space := true } else st).glyphs
            = st.glyphs := by split <;> rfl
        rw [hglyphs] at hg'
        exact h g' hg'

/-- Each alternate-glyph iteration preserves the naming invariant
(vacuously: the glyph it adds is not a regular glyph). -/
theorem alternateStep_name (st : List UGlyph × List String) (p : String × VariantInfo)
    (h : ∀ g ∈ st.1, RegNameOK g) :
    ∀ g ∈ (alternateStep st p).1, RegNameOK g := by
  intro g hg
  unfold alternateStep at hg
  split at hg
  · exact h g hg
  · split at hg
    · exact h g hg
    · rcases List.mem_append.mp hg with hg | hg
      · exact h g hg
      · simp only [List.mem_singleton] at hg
        subst hg
        intro c hk
        exact absurd hk (by simp)

/-- C9 (corrected).  Every realized regular glyph follows the naming
rule of the code: the glyph resolved from U+0020 is named `space`, any
other is named by `production_name_from_cp`, which is `uni` followed by
exactly 4 uppercase hex digits for codepoints at most 0xFFFF and `u`
followed by exactly 5 uppercase hex digits for codepoints above 0xFFFF
*and at most 0xFFFFF*.  (For the space glyph and for codepoints above
0xFFFFF the original claim fails: see the counterexample.) -/
theorem production_name_spec (stems : List String) (cp : ℕ) :
    (∀ g ∈ build_ufo stems, RegNameOK g) ∧
    (cp ≤ 0xFFFF →
      production_name_from_cp cp = "uni" ++ upperHexPad 4 cp ∧
      (upperHexPad 4 cp).data.length = 4 ∧
      ∀ c ∈ (upperHexPad 4 cp).data, isUpperHexChar c) ∧
    (0xFFFF < cp → cp ≤ 0xFFFFF →
      production_name_from_cp cp = "u" ++ upperHexPad 5 cp ∧
      (upperHexPad 5 cp).data.length = 5 ∧
      ∀ c ∈ (upperHexPad 5 cp).data, isUpperHexChar c) := by
  refine ⟨?_, ?_, ?_⟩
  · intro g hg
    unfold build_ufo at hg
    simp only at hg
    have hreg : ∀ g ∈ ((List.insertionSort (fun a b : String => pyStrLe a b) stems).foldl
        (regularStep ((detect_alternate_glyphs stems).map (fun p => p.2.file)))
        ⟨[⟨".notdef", [], .notdef⟩], [], false⟩).glyphs, RegNameOK g := by
      apply foldl_preserves (fun st : RegSt => ∀ g ∈ st.glyphs, RegNameOK g)
        _ (fun a b ha => regularStep_name _ a b ha)
      intro g hg0
      simp only [List.mem_singleton] at hg0
      subst hg0
      intro c hk
      exact absurd hk (by simp)
    have halt : ∀ g ∈ ((detect_alternate_glyphs stems).foldl alternateStep
        (((List.insertionSort (fun a b : String => pyStrLe a b) stems).foldl
          (regularStep ((detect_alternate_glyphs stems).map (fun p => p.2.file)))
          ⟨[⟨".notdef", [], .notdef⟩], [], false⟩).glyphs, [])).1, RegNameOK g := by
      apply foldl_preserves (fun stp : List UGlyph × List String => ∀ g ∈ stp.1, RegNameOK g)
        _ (fun a b ha => alternateStep_name a b ha)
      exact hreg
    by_cases hs : ((List.insertionSort (fun a b : String => pyStrLe a b) stems).foldl
        (regularStep ((detect_alternate_glyphs stems).map (fun p => p.2.file)))
        ⟨[⟨".notdef", [], .notdef⟩], [], false⟩).has_space = true
    · rw [if_pos hs] at hg
      exact halt g hg
    · rw [if_neg hs] at hg
      rcases List.mem_append.mp hg with hg | hg
      · exact halt g hg
      · simp only [List.mem_singleton] at hg
        subst hg
        intro c hk
        exact absurd hk (by simp)
  · intro h
    refine ⟨by rw [production_name_from_cp, if_pos h], ?_, upperHexPad_chars 4 cp⟩
    exact upperHexPad_length 4 cp
      (upperHexDigits_length_le 4 cp (by norm_num)
        (lt_of_le_of_lt h (by norm_num : (0xFFFF : ℕ) < 16 ^ 4)))
  · intro h1 h2
    refine ⟨by rw [production_name_from_cp, if_neg (by omega)], ?_, upperHexPad_chars 5 cp⟩
    exact upperHexPad_length 5 cp
      (upperHexDigits_length_le 5 cp (by norm_num)
        (lt_of_le_of_lt h2 (by norm_num : (0xFFFFF : ℕ) < 16 ^ 5)))

/-- Witness for C9 (amended): the realized glyph of `0020.svg` is named
`space`, and the hex shapes at U+0041 and U+1F600. -/
theorem production_name_spec_witness :
    (("space" : String) =
      if (0x20 : ℕ) = 0x20 then "space" else production_name_from_cp 0x20) ∧
    production_name_from_cp 0x41 = "uni" ++ upperHexPad 4 0x41 ∧
    production_name_from_cp 0x1F600 = "u" ++ upperHexPad 5 0x1F600 ∧
    production_name_from_cp 0x41 = "uni0041" ∧
    production_name_from_cp 0x1F600 = "u1F600" :=
  ⟨(production_name_spec ["0020"] 0x41).1 ⟨"space", [0x20], .regular 0x20⟩ (by decide)
      0x20 rfl,
   ((production_name_spec ["0020"] 0x41).2.1 (by norm_num)).1,
   ((production_name_spec [] 0x1F600).2.2 (by norm_num) (by norm_num)).1,
   by decide, by decide⟩

/-- Counterexample to C9 as stated, in both reachable ways: the glyph
realized from `0020.svg` is named `space`, not `uni0020`; and U+100000
is a valid codepoint (≤ 0x10FFFF, reachable from a 6-hex-digit
filename) for which `f"{0x100000:05X}"` emits six hex digits, not
five. -/
theorem production_name_six_digits :
    ((⟨"space", [0x20], GlyphKind.regular 0x20⟩ : UGlyph) ∈ build_ufo ["0020"] ∧
      ("space" : String) ≠ production_name_from_cp 0x20 ∧
      production_name_from_cp 0x20 = "uni0020") ∧
    (production_name_from_cp 0x100000 = "u100000" ∧
      (production_name_from_cp 0x100000).data.length ≠ 1 + 5 ∧
      (0x100000 : ℕ) ≤ 0x10FFFF) := by
  refine ⟨⟨by decide, by decide, by decide⟩, by decide, by decide, by norm_num⟩

/-- Tags built as `"ss" + suffix` start with the two characters `ss`. -/
theorem take2_ss (x : String) : ("ss" ++ x).data.take 2 = ['s', 's'] := rfl

/-- Tags built as `"cv" + suffix` start with the two characters `cv`. -/
theorem take2_cv (x : String) : ("cv" ++ x).data.take 2 = ['c', 'v'] := rfl

/-! ### Substring occurrence

`generate_opentype_features` assembles the `aalt` block by substring
searches over each generated block's full text (`"feature salt" in
code`, elif `"feature ss"`, elif `"feature cv"`), re-extracting the tag
with the regex `feature (ss\d+)` / `feature (cv\d+)`.  The lemmas below
characterize `containsSubCA`/`reSearchFeature` and localize the
searches inside a rendered block text when the glyph names it mentions
are space-free. -/

end FontBuild
